import Mathlib

/-!
Shallow embedding of the `saiteki_case_bot` repository
(`src/store_to_vectordb.py` and `src/agent.py`).

Text is modelled as `List Char` (Python `str` with `length_function=len`).
The text splitter used by `SaitekiManualHandler.split_documents` is
`RecursiveCharacterTextSplitter(chunk_size=1000, chunk_overlap=50,
length_function=len)`; its splitting and merging behaviour is embedded
below (`splitText`, `mergeSplits`) exactly following the library code the
repository invokes: descending separator list `["\n\n", "\n", " ", ""]`,
greedy merge with overlap carry-over, and per-chunk `str.strip()` in
`_join_docs` (an empty stripped chunk is dropped).
-/

set_option autoImplicit false

set_option maxRecDepth 1000000

namespace Saiteki

abbrev Text := List Char

/-- Python `str.strip()` whitespace: the characters for which
`str.isspace()` holds (CPython's `Py_UNICODE_ISSPACE`): tab through
carriage return, the `0x1c`–`0x1f` separators, space, NEL, no-break
space, ogham space mark, the `U+2000`–`U+200A` spaces, line and
paragraph separators, narrow no-break space, medium mathematical space,
and the ideographic space `U+3000`. -/
def isPyWs (c : Char) : Bool :=
  (0x09 ≤ c.toNat && c.toNat ≤ 0x0d) ||
  (0x1c ≤ c.toNat && c.toNat ≤ 0x1f) ||
  c.toNat == 0x20 || c.toNat == 0x85 || c.toNat == 0xa0 ||
  c.toNat == 0x1680 ||
  (0x2000 ≤ c.toNat && c.toNat ≤ 0x200a) ||
  c.toNat == 0x2028 || c.toNat == 0x2029 || c.toNat == 0x202f ||
  c.toNat == 0x205f || c.toNat == 0x3000

/-- Python `str.strip()`: drop whitespace from both ends. -/
def pyStrip (t : Text) : Text :=
  ((t.dropWhile isPyWs).reverse.dropWhile isPyWs).reverse

/-- Python `sub in text` (substring containment). -/
def isSubstring (sep : Text) : Text → Bool
  | [] => sep.isEmpty
  | c :: rest => sep.isPrefixOf (c :: rest) || isSubstring sep rest

/-- Python `text.split(sep)` for non-empty `sep`, written with an
accumulator for the current piece (reversed) and structural fuel (every
step consumes at least one character, so fuel `text.length` suffices;
the fuel-exhausted case is unreachable at the call sites below). -/
def splitOnAux (sep : Text) : Nat → Text → Text → List Text
  | _, [], acc => [acc.reverse]
  | 0, text, acc => [acc.reverse ++ text]
  | fuel + 1, c :: rest, acc =>
    if !sep.isEmpty && sep.isPrefixOf (c :: rest) then
      acc.reverse :: splitOnAux sep fuel (List.drop sep.length (c :: rest)) []
    else
      splitOnAux sep fuel rest (c :: acc)

/-- `RecursiveCharacterTextSplitter`'s separator preference list:
paragraph break, line break, word break, character. -/
def separators : List Text := [['\n', '\n'], ['\n'], [' '], []]

def chooseSepGo (text : Text) : List Text → Text
  | [] => []
  | s :: rest =>
    if s.isEmpty then s
    else if isSubstring s text then s
    else chooseSepGo text rest

/-- The separator-selection loop of `RecursiveCharacterTextSplitter.split_text`:
the first separator occurring in the text (the empty separator always matches). -/
def chooseSeparator (text : Text) : Text :=
  chooseSepGo text separators

/-- `splits = text.split(separator) if separator else list(text)`. -/
def getSplits (sep : Text) (text : Text) : List Text :=
  if sep.isEmpty then text.map (fun c => [c])
  else splitOnAux sep text.length text []

/-- `separator.join(docs)`. -/
def joinSep (sep : Text) : List Text → Text
  | [] => []
  | [x] => x
  | x :: y :: t => x ++ sep ++ joinSep sep (y :: t)

/-- The running total `TextSplitter._merge_splits` maintains for a list of
pieces: sum of lengths plus one separator between adjacent pieces. -/
def listTotal (sepLen : Nat) (l : List Text) : Nat :=
  (l.map List.length).sum + sepLen * (l.length - 1)

/-- `TextSplitter._join_docs`: join, strip, drop if empty
(returned as a zero- or one-element list). -/
def joinDocs (sep : Text) (l : List Text) : List Text :=
  let t := pyStrip (joinSep sep l)
  if t.isEmpty then [] else [t]

/-- The `while` loop of `_merge_splits` that pops pieces from the front of
`current_doc` until the carried total is within the overlap and the next
piece fits; `cur` is in order, oldest first. -/
def popLoop (cs ov sepLen newLen : Nat) : List Text → Nat → List Text × Nat
  | [], _ => ([], 0)
  | d :: rest, total =>
    if total > ov || (total + newLen + sepLen > cs && total > 0) then
      popLoop cs ov sepLen newLen rest
        (total - (d.length + (if rest.isEmpty then 0 else sepLen)))
    else (d :: rest, total)

/-- The main loop of `TextSplitter._merge_splits`. `curRev` is
`current_doc` in reverse (newest piece first); `total` is the carried
running total; `docs` the chunks emitted so far. -/
def mergeLoop (cs ov : Nat) (sep : Text) :
    List Text → List Text → Nat → List Text → List Text
  | [], docs, _, curRev => docs ++ joinDocs sep curRev.reverse
  | d :: rest, docs, total, curRev =>
    let dLen := d.length
    let adj := if curRev.isEmpty then 0 else sep.length
    if total + dLen + adj > cs then
      let flushed := joinDocs sep curRev.reverse
      let popped := popLoop cs ov sep.length dLen curRev.reverse total
      let adj2 := if popped.1.isEmpty then 0 else sep.length
      mergeLoop cs ov sep rest (docs ++ flushed)
        (popped.2 + dLen + adj2) (d :: popped.1.reverse)
    else
      mergeLoop cs ov sep rest docs (total + dLen + adj) (d :: curRev)

/-- `TextSplitter._merge_splits(splits, separator)`. -/
def mergeSplits (cs ov : Nat) (sep : Text) (splits : List Text) : List Text :=
  mergeLoop cs ov sep splits [] 0 []

/-- The loop over `splits` in `split_text`: short pieces are accumulated
(in `goodRev`, reversed) and merged; an oversized piece first flushes the
accumulated pieces and is then split recursively (`recur` is the
recursive call of `split_text`). -/
def processSplits (cs ov : Nat) (recur : Text → List Text) (sep : Text) :
    List Text → List Text → List Text
  | [], goodRev =>
    if goodRev.isEmpty then [] else mergeSplits cs ov sep goodRev.reverse
  | s :: rest, goodRev =>
    if s.length < cs then processSplits cs ov recur sep rest (s :: goodRev)
    else
      (if goodRev.isEmpty then [] else mergeSplits cs ov sep goodRev.reverse)
        ++ recur s
        ++ processSplits cs ov recur sep rest []

/-- `RecursiveCharacterTextSplitter.split_text`, with structural fuel for
the recursion on oversized pieces (each recursive call is on a strictly
shorter text, so the fuel supplied by `splitText` is never exhausted for
the repository's configuration). -/
def splitTextCore (cs ov : Nat) : Nat → Text → List Text
  | 0, _ => []
  | fuel + 1, text =>
    let sep := chooseSeparator text
    processSplits cs ov (fun s => splitTextCore cs ov fuel s) sep
      (getSplits sep text) []

/-- `split_text` with enough fuel for the recursion (each recursive call
is on a strictly shorter text). -/
def splitText (cs ov : Nat) (text : Text) : List Text :=
  splitTextCore cs ov (text.length + 1) text

structure Metadata where
  source : String
  title : String
  score : Option Int
deriving DecidableEq, Repr

structure Document where
  page_content : Text
  metadata : Metadata
deriving DecidableEq, Repr

/-- `TextSplitter.create_documents`: split each text and attach a copy of
the source metadata to every chunk. -/
def createDocuments (cs ov : Nat) : List (Text × Metadata) → List Document
  | [] => []
  | p :: rest =>
    (splitText cs ov p.1).map (fun chunk => Document.mk chunk p.2)
      ++ createDocuments cs ov rest

/-- `SaitekiManualHandler.split_documents`: a
`RecursiveCharacterTextSplitter(chunk_size=1000, chunk_overlap=50,
length_function=len)` applied to the documents. -/
def split_documents (docs : List Document) : List Document :=
  createDocuments 1000 50 (docs.map (fun d => (d.page_content, d.metadata)))

/-! ## Document builder (`SaitekiManualHandler.generate_document`)

`generate_document` extracts the `h1` title, the author `ul` block, the
username `span` inside it, and the body `div` from the fetched page.  Each
`soup.find(...)` returns the element or `None`; accessing `.text` on a
missing element raises (the spec's `ExtractionError`). -/

/-- The author `ul` element; `find` for the username span may fail. -/
structure AuthorBlock where
  usernameSpan : Option String
deriving DecidableEq, Repr

/-- The parsed page as far as `generate_document` consumes it. -/
structure Page where
  h1Title : Option String
  authorBlock : Option AuthorBlock
  bodyDiv : Option Text
deriving DecidableEq, Repr

inductive ExtractionError where
  | missingTitle (url : String)
  | missingAuthor (url : String)
  | missingUsername (url : String)
  | missingBody (url : String)
deriving DecidableEq, Repr

/-- `SaitekiManualHandler.generate_document`: builds a `Document` from a
fetched page, failing on the first absent required field.  The metadata
is `{"source": url, "title": f"{title} - {username}"}` — no score key. -/
def generate_document (fetch : String → Page) (url : String) :
    Except ExtractionError Document :=
  let soup := fetch url
  match soup.h1Title with
  | none => .error (.missingTitle url)
  | some title =>
    match soup.authorBlock with
    | none => .error (.missingAuthor url)
    | some author =>
      match author.usernameSpan with
      | none => .error (.missingUsername url)
      | some username =>
        match soup.bodyDiv with
        | none => .error (.missingBody url)
        | some body =>
          .ok ⟨body, { source := url, title := title ++ " - " ++ username,
                       score := none }⟩

/-- `SaitekiManualHandler._generate_documents`: the plain loop
`for url in page_urls: documents.append(self.generate_document(url))`
with no exception handling — the first failure aborts the whole batch. -/
def generateDocuments (fetch : String → Page) :
    List String → Except ExtractionError (List Document)
  | [] => .ok []
  | url :: rest =>
    match generate_document fetch url with
    | .error e => .error e
    | .ok d =>
      match generateDocuments fetch rest with
      | .error e => .error e
      | .ok ds => .ok (d :: ds)

/-- `SaitekiManualHandler.get_documents_from_urls`: gather content URLs,
build all documents, then split them. -/
def get_documents_from_urls (fetch : String → Page)
    (getPageUrls : String → List String) (urls : List String) :
    Except ExtractionError (List Document) :=
  let contentUrls := (urls.map getPageUrls).flatten
  match generateDocuments fetch contentUrls with
  | .error e => .error e
  | .ok docs => .ok (split_documents docs)

/-! ## Retrieval and the Agent (`src/agent.py`) -/

/-- The FAISS store as consumed by `FaissWithScore`: only
`similarity_search_with_score` is used (scores are FAISS L2 distances,
carried opaquely). -/
structure Faiss where
  searchWithScore : String → Nat → List (Document × Int)

/-- `FaissWithScore.similarity_search`: fetch documents with scores and
stash each score into the document's metadata, preserving order.
`k` defaults to 5. -/
def similarity_search (vs : Faiss) (query : String) (k : Nat := 5) :
    List Document :=
  (vs.searchWithScore query k).map fun ds =>
    { ds.1 with metadata := { ds.1.metadata with score := some ds.2 } }

inductive AgentError where
  | missingCredential   -- the raise on a missing OPENAI_API_KEY
  | indexLoad           -- FaissWithScore.load_local failure
deriving DecidableEq, Repr

/-- The QA chain built by `initialize_chain`: the loaded vector store
bound to the LLM collaborator (`RetrievalQA.from_chain_type` with
`chain_type="stuff"`, `return_source_documents=True`). -/
structure QAChain where
  index : Faiss
  llm : String → List Document → String

/-- The process environment and external world of the agent. -/
structure Env where
  apiKey : Option String        -- os.environ.get("OPENAI_API_KEY")
  storedIndex : Option Faiss    -- the persisted index, if loadable
  llm : String → List Document → String

structure Agent where
  qa_chain : Option QAChain
  openai_api_key : Option String
  vector_store_folder_path : String
  vector_store_index_name : String

/-- `Agent.__init__`: `qa_chain` starts as `None`. -/
def Agent.init (folder index : String) : Agent :=
  { qa_chain := none, openai_api_key := none,
    vector_store_folder_path := folder, vector_store_index_name := index }

/-- External calls observed during agent operations. -/
inductive ExtCall where
  | indexLoad  -- FaissWithScore.load_local (disk access)
  | embed      -- an embedding request
  | llm        -- an LLM completion request
deriving DecidableEq, Repr

/-- `Agent.initialize_chain` in source order: construct `OpenAIEmbeddings`
(no call made), read `OPENAI_API_KEY` (raising if absent, before any
load), load the persisted index (raising `IndexLoadError` if missing),
then build and assign the QA chain.  Returns the result, the updated
agent, and the external calls attempted. -/
def initialize_chain (env : Env) (a : Agent) :
    Except AgentError QAChain × Agent × List ExtCall :=
  match env.apiKey with
  | none => (.error .missingCredential, a, [])
  | some key =>
    let a1 := { a with openai_api_key := some key }
    match env.storedIndex with
    | none => (.error .indexLoad, a1, [.indexLoad])
    | some idx =>
      let chain : QAChain := { index := idx, llm := env.llm }
      (.ok chain, { a1 with qa_chain := some chain }, [.indexLoad])

structure SourceEntry where
  title : String
  url : String
  score : Option Int
deriving DecidableEq, Repr

structure RunResult where
  answer_text : String
  source_documents : List SourceEntry
deriving DecidableEq, Repr

/-- Invoking the QA chain: the retriever calls
`FaissWithScore.similarity_search` (default `k = 5`), the stuffed prompt
goes to the LLM, and the retrieved source documents are returned. -/
def callChain (ch : QAChain) (prompt : String) : String × List Document :=
  let docs := similarity_search ch.index prompt
  (ch.llm prompt docs, docs)

/-- `Agent.run`: initialize the chain if `qa_chain` is `None` (errors
propagate, leaving the agent as the failed initialization left it), then
answer, extracting title/source/score from each source document's
metadata in retrieval order. -/
def Agent.run (env : Env) (a : Agent) (prompt : String) :
    Except AgentError RunResult × Agent × List ExtCall :=
  let step :=
    match a.qa_chain with
    | some ch => (Except.ok ch, a, ([] : List ExtCall))
    | none => initialize_chain env a
  match step with
  | (.error e, a1, calls) => (.error e, a1, calls)
  | (.ok ch, a1, calls) =>
    let ans := callChain ch prompt
    (.ok { answer_text := ans.1,
           source_documents := ans.2.map fun d =>
             { title := d.metadata.title, url := d.metadata.source,
               score := d.metadata.score } },
     a1, calls ++ [.embed, .llm])

/-! ## VectorStore (`store_to_vectordb.py`) -/

/-- A flat model of the filesystem: folders with their files. -/
structure FileSys where
  folders : List (String × List (String × String))
deriving DecidableEq, Repr

inductive FsError where
  | notADirectory
deriving DecidableEq, Repr

/-- `os.path.isdir`. -/
def isdir (path : String) (fs : FileSys) : Bool :=
  fs.folders.any (fun f => f.1 == path)

/-- `shutil.rmtree`: removes the folder and all its contents; raises if
the folder does not exist. -/
def rmtree (path : String) (fs : FileSys) : Except FsError FileSys :=
  if isdir path fs then
    .ok ⟨fs.folders.filter (fun f => f.1 != path)⟩
  else .error .notADirectory

structure VectorStore where
  folder_path : String
  index_name : String
deriving DecidableEq, Repr

/-- `VectorStore.delete_all_indexes`: `rmtree` guarded by `isdir`. -/
def delete_all_indexes (vs : VectorStore) (fs : FileSys) :
    Except FsError FileSys :=
  if isdir vs.folder_path fs then rmtree vs.folder_path fs
  else .ok fs

/-! ## Lemmas about `joinSep` and `splitOnAux` -/

theorem joinSep_cons_of_ne_nil (sep x : Text) (l : List Text) (h : l ≠ []) :
    joinSep sep (x :: l) = x ++ sep ++ joinSep sep l := by
  cases l with
  | nil => exact absurd rfl h
  | cons y t => rfl

theorem joinSep_length (sep : Text) (l : List Text) :
    (joinSep sep l).length = listTotal sep.length l := by
  induction l with
  | nil => simp [joinSep, listTotal]
  | cons x t ih =>
    cases t with
    | nil => simp [joinSep, listTotal]
    | cons y u =>
      rw [joinSep_cons_of_ne_nil sep x (y :: u) (by simp), List.length_append,
        List.length_append, ih]
      simp only [listTotal, List.map_cons, List.sum_cons, List.length_cons,
        Nat.add_sub_cancel]
      rw [Nat.mul_succ]
      omega

theorem splitOnAux_ne_nil (sep : Text) (fuel : Nat) (text acc : Text) :
    splitOnAux sep fuel text acc ≠ [] := by
  induction fuel generalizing text acc with
  | zero => cases text <;> simp [splitOnAux]
  | succ fuel ih =>
    cases text with
    | nil => simp [splitOnAux]
    | cons c rest =>
      rw [splitOnAux]
      split
      · simp
      · exact ih rest (c :: acc)

theorem joinSep_flatten (l : List Text) :
    joinSep [] l = l.flatten := by
  induction l with
  | nil => rfl
  | cons x t ih =>
    cases t with
    | nil => simp [joinSep]
    | cons y u =>
      rw [joinSep_cons_of_ne_nil [] x (y :: u) (by simp)]
      simp [ih]

theorem joinSep_map_singleton (text : Text) :
    joinSep [] (text.map (fun c => [c])) = text := by
  rw [joinSep_flatten]
  induction text with
  | nil => rfl
  | cons c rest ih => simp [ih]

/-- Round trip: joining the pieces of a Python `split` with the separator
restores the text. -/
theorem joinSep_splitOnAux (sep : Text) (hsep : sep ≠ []) (fuel : Nat) :
    ∀ text acc : Text, text.length ≤ fuel →
      joinSep sep (splitOnAux sep fuel text acc) = acc.reverse ++ text := by
  induction fuel with
  | zero =>
    intro text acc hlen
    have : text = [] := List.length_eq_zero.mp (Nat.le_zero.mp hlen)
    subst this
    simp [splitOnAux, joinSep]
  | succ fuel ih =>
    intro text acc hlen
    cases text with
    | nil => simp [splitOnAux, joinSep]
    | cons c rest =>
      rw [splitOnAux]
      split
      · rename_i hcond
        have hpre : sep.isPrefixOf (c :: rest) = true := by
          have h2 := hcond
          simp only [Bool.and_eq_true] at h2
          exact h2.2
        rw [joinSep_cons_of_ne_nil sep acc.reverse _ (splitOnAux_ne_nil _ _ _ _)]
        have hpre' : sep <+: (c :: rest) := List.isPrefixOf_iff_prefix.mp hpre
        have hdroplen : (List.drop sep.length (c :: rest)).length ≤ fuel := by
          have hs : 0 < sep.length := List.length_pos.mpr hsep
          simp only [List.length_drop, List.length_cons]
          simp only [List.length_cons] at hlen
          omega
        rw [ih _ [] hdroplen]
        have heq : sep ++ List.drop sep.length (c :: rest) = c :: rest :=
          List.prefix_iff_eq_append.mp hpre'
        simp only [List.reverse_nil, List.nil_append]
        rw [List.append_assoc, heq]
      · have hrest : rest.length ≤ fuel := by
          simp only [List.length_cons] at hlen; omega
        rw [ih rest (c :: acc) hrest]
        simp

/-- When the separator occurs in the text, Python `split` produces at
least two pieces. -/
theorem splitOnAux_two_pieces (sep : Text) (hsep : sep ≠ []) (fuel : Nat) :
    ∀ text acc : Text, text.length ≤ fuel → isSubstring sep text = true →
      2 ≤ (splitOnAux sep fuel text acc).length := by
  induction fuel with
  | zero =>
    intro text acc hlen hsub
    have : text = [] := List.length_eq_zero.mp (Nat.le_zero.mp hlen)
    subst this
    simp [isSubstring, List.isEmpty_iff] at hsub
    exact absurd hsub hsep
  | succ fuel ih =>
    intro text acc hlen hsub
    cases text with
    | nil =>
      simp [isSubstring, List.isEmpty_iff] at hsub
      exact absurd hsub hsep
    | cons c rest =>
      rw [splitOnAux]
      split
      · have := splitOnAux_ne_nil sep fuel (List.drop sep.length (c :: rest)) []
        simp only [List.length_cons]
        cases h : splitOnAux sep fuel (List.drop sep.length (c :: rest)) [] with
        | nil => exact absurd h this
        | cons a l => simp
      · rename_i hcond
        simp only [Bool.and_eq_true, not_and, Bool.not_eq_true',
          Bool.not_eq_true] at hcond
        have hemp : sep.isEmpty = false := by
          simpa [List.isEmpty_iff] using hsep
        have hnpre : sep.isPrefixOf (c :: rest) = false := hcond hemp
        have hsub' : isSubstring sep rest = true := by
          rw [isSubstring, hnpre] at hsub
          simpa using hsub
        exact ih rest (c :: acc) (by simp only [List.length_cons] at hlen; omega) hsub'

/-- Each piece of a Python `split` on an occurring separator is at least
`sep.length` shorter than the text. -/
theorem splitOnAux_piece_length (sep : Text) (hsep : sep ≠ []) (text : Text)
    (hsub : isSubstring sep text = true) :
    ∀ p ∈ splitOnAux sep text.length text [], p.length + sep.length ≤ text.length := by
  intro p hp
  have hjoin := joinSep_splitOnAux sep hsep text.length text [] (Nat.le_refl _)
  simp only [List.reverse_nil, List.nil_append] at hjoin
  have hlen : listTotal sep.length (splitOnAux sep text.length text []) = text.length := by
    rw [← joinSep_length, hjoin]
  have htwo : 2 ≤ (splitOnAux sep text.length text []).length :=
    splitOnAux_two_pieces sep hsep text.length text [] (Nat.le_refl _) hsub
  have hmem : p.length ≤ ((splitOnAux sep text.length text []).map List.length).sum :=
    List.single_le_sum (by intro x _; exact Nat.zero_le x) _
      (List.mem_map_of_mem List.length hp)
  unfold listTotal at hlen
  have hsl : 0 < sep.length := List.length_pos.mpr hsep
  set n := (splitOnAux sep text.length text []).length with hn
  have : sep.length * 1 ≤ sep.length * (n - 1) :=
    Nat.mul_le_mul_left _ (by omega)
  omega

/-- `chooseSeparator` returns one of the four preference separators. -/
theorem chooseSeparator_mem (text : Text) :
    chooseSeparator text = ['\n', '\n'] ∨ chooseSeparator text = ['\n'] ∨
      chooseSeparator text = [' '] ∨ chooseSeparator text = [] := by
  simp only [chooseSeparator, separators, chooseSepGo]
  split_ifs <;> simp

/-- A non-empty chosen separator occurs in the text. -/
theorem chooseSeparator_isSubstring (text : Text)
    (h : chooseSeparator text ≠ []) :
    isSubstring (chooseSeparator text) text = true := by
  simp only [chooseSeparator, separators, chooseSepGo] at *
  split_ifs at * <;> simp_all

/-- Every chosen separator consists of Python whitespace characters. -/
theorem chooseSeparator_all_ws (text : Text) :
    (chooseSeparator text).all isPyWs = true := by
  rcases chooseSeparator_mem text with h | h | h | h <;> rw [h] <;> decide

/-! ## Lemmas about `listTotal`, `pyStrip` and the merge loop -/

theorem listTotal_cons (sepLen : Nat) (d : Text) (rest : List Text) :
    listTotal sepLen (d :: rest) =
      d.length + (if rest.isEmpty then 0 else sepLen) + listTotal sepLen rest := by
  cases rest with
  | nil => simp [listTotal]
  | cons e t =>
    simp [listTotal, Nat.mul_succ]
    omega

theorem listTotal_append_singleton (sepLen : Nat) (l : List Text) (d : Text) :
    listTotal sepLen (l ++ [d]) =
      listTotal sepLen l + d.length + (if l.isEmpty then 0 else sepLen) := by
  induction l with
  | nil => simp [listTotal]
  | cons x t ih =>
    rw [List.cons_append, listTotal_cons, ih, listTotal_cons]
    cases t <;> simp <;> omega

theorem listTotal_prefix_le (sepLen : Nat) (l₁ l₂ : List Text) :
    listTotal sepLen l₁ ≤ listTotal sepLen (l₁ ++ l₂) := by
  unfold listTotal
  simp only [List.map_append, List.sum_append, List.length_append]
  have h1 : (l₁.map List.length).sum ≤ (l₁.map List.length).sum + (l₂.map List.length).sum :=
    Nat.le_add_right _ _
  have h2 : sepLen * (l₁.length - 1) ≤ sepLen * (l₁.length + l₂.length - 1) :=
    Nat.mul_le_mul_left _ (by omega)
  omega

theorem dropWhile_length_le (p : Char → Bool) (l : List Char) :
    (l.dropWhile p).length ≤ l.length := by
  induction l with
  | nil => simp
  | cons a t ih =>
    rw [List.dropWhile_cons]
    split
    · exact Nat.le_trans ih (by simp)
    · simp

theorem pyStrip_length_le (t : Text) : (pyStrip t).length ≤ t.length := by
  unfold pyStrip
  calc ((t.dropWhile isPyWs).reverse.dropWhile isPyWs).reverse.length
      = ((t.dropWhile isPyWs).reverse.dropWhile isPyWs).length := List.length_reverse _
    _ ≤ (t.dropWhile isPyWs).reverse.length := dropWhile_length_le _ _
    _ = (t.dropWhile isPyWs).length := List.length_reverse _
    _ ≤ t.length := dropWhile_length_le _ _

theorem pyStrip_eq_self (t : Text)
    (h1 : ∀ c, t.head? = some c → isPyWs c = false)
    (h2 : ∀ c, t.getLast? = some c → isPyWs c = false) :
    pyStrip t = t := by
  unfold pyStrip
  have hd : t.dropWhile isPyWs = t := by
    cases t with
    | nil => rfl
    | cons a l =>
      rw [List.dropWhile_cons, if_neg]
      simp [h1 a rfl]
  rw [hd]
  have hr : t.reverse.dropWhile isPyWs = t.reverse := by
    cases hrev : t.reverse with
    | nil => rfl
    | cons a l =>
      rw [List.dropWhile_cons, if_neg]
      have hlast : t.getLast? = some a := by
        rw [← List.head?_reverse, hrev]
        rfl
      simp [h2 a hlast]
  rw [hr, List.reverse_reverse]

/-- If everything fits within the chunk size, the merge loop never
flushes and produces the single joined chunk. -/
theorem mergeLoop_no_flush (cs ov : Nat) (sep : Text) :
    ∀ (splits docs curRev : List Text),
      listTotal sep.length (curRev.reverse ++ splits) ≤ cs →
      mergeLoop cs ov sep splits docs (listTotal sep.length curRev.reverse) curRev =
        docs ++ joinDocs sep (curRev.reverse ++ splits) := by
  intro splits
  induction splits with
  | nil =>
    intro docs curRev _
    simp [mergeLoop]
  | cons d rest ih =>
    intro docs curRev hle
    have hrevEmpty : curRev.reverse.isEmpty = curRev.isEmpty := by
      cases curRev <;> simp
    have hadj : listTotal sep.length curRev.reverse + d.length +
        (if curRev.isEmpty then 0 else sep.length) =
        listTotal sep.length (curRev.reverse ++ [d]) := by
      rw [listTotal_append_singleton, hrevEmpty]
    have hstep : listTotal sep.length (curRev.reverse ++ [d]) ≤ cs := by
      refine Nat.le_trans ?_ hle
      have := listTotal_prefix_le sep.length (curRev.reverse ++ [d]) rest
      simpa [List.append_assoc] using this
    simp only [mergeLoop]
    rw [if_neg (by omega)]
    have ihapp := ih docs (d :: curRev)
      (by simpa [List.append_assoc] using hle)
    simp only [List.reverse_cons] at ihapp
    rw [hadj, ihapp]
    simp [List.append_assoc]

/-- When every piece is below the chunk size, the `split_text` loop just
merges them all. -/
theorem processSplits_all_good (cs ov : Nat) (recur : Text → List Text) (sep : Text) :
    ∀ (splits goodRev : List Text), (∀ s ∈ splits, s.length < cs) →
      processSplits cs ov recur sep splits goodRev =
        if (goodRev.reverse ++ splits).isEmpty then []
        else mergeSplits cs ov sep (goodRev.reverse ++ splits) := by
  intro splits
  induction splits with
  | nil =>
    intro goodRev _
    simp only [processSplits, List.append_nil]
    cases goodRev <;> simp
  | cons s rest ih =>
    intro goodRev hgood
    rw [processSplits, if_pos (hgood s (by simp))]
    rw [ih (s :: goodRev) (fun x hx => hgood x (by simp [hx]))]
    simp [List.reverse_cons, List.append_assoc]

theorem getSplits_ne_nil (sep text : Text) (hne : text ≠ []) :
    getSplits sep text ≠ [] := by
  unfold getSplits
  split
  · simpa using hne
  · exact splitOnAux_ne_nil _ _ _ _

/-- Joining the chosen splits restores the text. -/
theorem joinSep_getSplits (text : Text) :
    joinSep (chooseSeparator text) (getSplits (chooseSeparator text) text) = text := by
  by_cases hsep : chooseSeparator text = []
  · rw [hsep]
    unfold getSplits
    rw [if_pos (by simp)]
    exact joinSep_map_singleton text
  · unfold getSplits
    rw [if_neg (by simpa [List.isEmpty_iff] using hsep)]
    have := joinSep_splitOnAux (chooseSeparator text) hsep text.length text []
      (Nat.le_refl _)
    simpa using this

/-- With a text of length at most 1000, every piece the splitter produces
is strictly below the 1000-character chunk size. -/
theorem getSplits_piece_lt (text : Text) (hlen : text.length ≤ 1000) :
    ∀ p ∈ getSplits (chooseSeparator text) text, p.length < 1000 := by
  intro p hp
  by_cases hsep : chooseSeparator text = []
  · rw [hsep] at hp
    unfold getSplits at hp
    rw [if_pos (by simp)] at hp
    obtain ⟨c, _, rfl⟩ := List.mem_map.mp hp
    simp
  · unfold getSplits at hp
    rw [if_neg (by simpa [List.isEmpty_iff] using hsep)] at hp
    have hsub := chooseSeparator_isSubstring text hsep
    have hbound := splitOnAux_piece_length _ hsep text hsub p hp
    have hs : 0 < (chooseSeparator text).length := List.length_pos.mpr hsep
    omega

/-- A non-empty text of length at most the 1000-character chunk size is
split into its stripped self (or nothing, when whitespace-only). -/
theorem splitText_short (text : Text) (hne : text ≠ [])
    (hlen : text.length ≤ 1000) :
    splitText 1000 50 text =
      if (pyStrip text).isEmpty then [] else [pyStrip text] := by
  have h1 : splitText 1000 50 text =
      processSplits 1000 50 (fun s => splitTextCore 1000 50 text.length s)
        (chooseSeparator text) (getSplits (chooseSeparator text) text) [] := rfl
  rw [h1, processSplits_all_good 1000 50 _ _ _ [] (getSplits_piece_lt text hlen)]
  simp only [List.reverse_nil, List.nil_append]
  rw [if_neg (by
    simpa [List.isEmpty_iff] using getSplits_ne_nil (chooseSeparator text) text hne)]
  have hm := mergeLoop_no_flush 1000 50 (chooseSeparator text)
    (getSplits (chooseSeparator text) text) [] []
    (by
      simp only [List.reverse_nil, List.nil_append]
      rw [← joinSep_length, joinSep_getSplits]
      exact hlen)
  simp only [List.reverse_nil, List.nil_append] at hm
  rw [show listTotal (chooseSeparator text).length ([] : List Text) = 0 by
    simp [listTotal]] at hm
  unfold mergeSplits
  rw [hm]
  unfold joinDocs
  rw [joinSep_getSplits]

/-- Fidelity of the whitespace model beyond ASCII: a document edged with
the ideographic space `U+3000` is stripped by `_join_docs` exactly as
Python's `str.strip()` strips it. -/
theorem splitText_strips_ideographic_space :
    splitText 1000 50 ['　', 'a', '　'] = [['a']] := by decide

/-- The claim C5 as stated: splitting a single short document returns it
unchanged.  This fails when the content has leading or trailing
whitespace, which `_join_docs` strips. -/
theorem c5_counterexample :
    (Document.mk [' ', 'a', ' '] ⟨"https://saiteki.works/x", "T - U", none⟩).page_content.length ≤ 1000 ∧
    split_documents [Document.mk [' ', 'a', ' '] ⟨"https://saiteki.works/x", "T - U", none⟩] =
      [Document.mk ['a'] ⟨"https://saiteki.works/x", "T - U", none⟩] ∧
    split_documents [Document.mk [' ', 'a', ' '] ⟨"https://saiteki.works/x", "T - U", none⟩] ≠
      [Document.mk [' ', 'a', ' '] ⟨"https://saiteki.works/x", "T - U", none⟩] := by
  refine ⟨by decide, by decide, by decide⟩

/-- C5 (amended): a short document whose content is non-empty and has no
leading or trailing whitespace is returned unchanged as the single chunk,
and an empty document yields zero chunks. -/
theorem c5_short_document_preserved :
    (∀ d : Document, d.page_content ≠ [] → d.page_content.length ≤ 1000 →
      (∀ c, d.page_content.head? = some c → isPyWs c = false) →
      (∀ c, d.page_content.getLast? = some c → isPyWs c = false) →
      split_documents [d] = [d]) ∧
    (∀ m : Metadata, split_documents [Document.mk [] m] = []) := by
  constructor
  · intro d hne hlen hh hl
    show createDocuments 1000 50 [(d.page_content, d.metadata)] = [d]
    unfold createDocuments
    rw [splitText_short d.page_content hne hlen, pyStrip_eq_self d.page_content hh hl,
      if_neg (by simpa [List.isEmpty_iff] using hne)]
    simp [createDocuments]
  · intro m
    rfl

/-! ## The chunk-size bound

Every chunk the splitter emits has length at most the chunk size.  The
merge loop keeps the carried `total` equal to `listTotal` of
`current_doc`; after a flush the pop loop guarantees the next total fits,
except when only empty pieces survive — then the joined chunk starts with
the (whitespace) separator, which `str.strip()` removes again. -/

theorem listTotal_nil (sepLen : Nat) : listTotal sepLen [] = 0 := by
  simp [listTotal]

theorem listTotal_zero_all_nil (sepLen : Nat) (l : List Text)
    (h : listTotal sepLen l = 0) : ∀ d ∈ l, d = [] := by
  intro d hd
  unfold listTotal at h
  have hle : d.length ≤ (l.map List.length).sum :=
    List.single_le_sum (fun x _ => Nat.zero_le x) _ (List.mem_map_of_mem _ hd)
  exact List.length_eq_zero.mp (by omega)

theorem popLoop_spec (cs ov sepLen newLen : Nat) :
    ∀ (cur : List Text) (total : Nat), total = listTotal sepLen cur →
      (popLoop cs ov sepLen newLen cur total).2 =
          listTotal sepLen (popLoop cs ov sepLen newLen cur total).1 ∧
      ((popLoop cs ov sepLen newLen cur total).1 = [] ∨
        ((popLoop cs ov sepLen newLen cur total).2 ≤ ov ∧
         ((popLoop cs ov sepLen newLen cur total).2 + newLen + sepLen ≤ cs ∨
          (popLoop cs ov sepLen newLen cur total).2 = 0))) := by
  intro cur
  induction cur with
  | nil =>
    intro total _
    constructor
    · simp [popLoop, listTotal]
    · left; simp [popLoop]
  | cons d rest ih =>
    intro total htot
    rw [popLoop]
    split
    · apply ih
      rw [htot, listTotal_cons]
      omega
    · rename_i hcond
      simp only [Bool.or_eq_true, Bool.and_eq_true, decide_eq_true_eq,
        not_or, not_and] at hcond
      refine ⟨htot, Or.inr ?_⟩
      omega

theorem joinDocs_length_le (sep : Text) (l : List Text) :
    ∀ c ∈ joinDocs sep l, c.length ≤ listTotal sep.length l := by
  intro c hc
  unfold joinDocs at hc
  simp only at hc
  split at hc
  · simp at hc
  · rcases List.mem_singleton.mp hc with rfl
    calc (pyStrip (joinSep sep l)).length
        ≤ (joinSep sep l).length := pyStrip_length_le _
      _ = listTotal sep.length l := joinSep_length sep l

theorem joinDocs_ne_nil (sep : Text) (l : List Text) :
    ∀ c ∈ joinDocs sep l, c ≠ [] := by
  intro c hc
  unfold joinDocs at hc
  simp only at hc
  split at hc
  · simp at hc
  · rename_i hne
    rcases List.mem_singleton.mp hc with rfl
    simpa [List.isEmpty_iff] using hne

theorem dropWhile_append_of_all (p : Char → Bool) (l t : List Char)
    (h : ∀ c ∈ l, p c = true) : (l ++ t).dropWhile p = t.dropWhile p := by
  induction l with
  | nil => rfl
  | cons a r ih =>
    rw [List.cons_append, List.dropWhile_cons, if_pos (h a (by simp))]
    exact ih (fun c hc => h c (by simp [hc]))

theorem pyStrip_length_le_dropWhile (t : Text) :
    (pyStrip t).length ≤ (t.dropWhile isPyWs).length := by
  unfold pyStrip
  calc ((t.dropWhile isPyWs).reverse.dropWhile isPyWs).reverse.length
      = ((t.dropWhile isPyWs).reverse.dropWhile isPyWs).length := List.length_reverse _
    _ ≤ (t.dropWhile isPyWs).reverse.length := dropWhile_length_le _ _
    _ = (t.dropWhile isPyWs).length := List.length_reverse _

/-- A chunk joined from a leading empty piece starts with the separator,
which stripping removes: its length undercuts the running total by at
least the separator length. -/
theorem joinDocs_length_head_nil (sep : Text)
    (hws : ∀ ch ∈ sep, isPyWs ch = true) (l' : List Text) :
    ∀ c ∈ joinDocs sep ([] :: l'), c.length + sep.length ≤
      listTotal sep.length ([] :: l') := by
  intro c hc
  cases l' with
  | nil =>
    unfold joinDocs at hc
    simp [joinSep, pyStrip] at hc
  | cons q l'' =>
    unfold joinDocs at hc
    simp only at hc
    split at hc
    · simp at hc
    · rcases List.mem_singleton.mp hc with rfl
      have hjoin : joinSep sep ([] :: q :: l'') = sep ++ joinSep sep (q :: l'') := by
        rw [joinSep_cons_of_ne_nil sep [] (q :: l'') (by simp)]
        simp
      have hlen : (pyStrip (joinSep sep ([] :: q :: l''))).length ≤
          (joinSep sep (q :: l'')).length := by
        calc (pyStrip (joinSep sep ([] :: q :: l''))).length
            ≤ ((joinSep sep ([] :: q :: l'')).dropWhile isPyWs).length :=
              pyStrip_length_le_dropWhile _
          _ = ((joinSep sep (q :: l'')).dropWhile isPyWs).length := by
              rw [hjoin, dropWhile_append_of_all isPyWs sep _ hws]
          _ ≤ (joinSep sep (q :: l'')).length := dropWhile_length_le _ _
      rw [joinSep_length] at hlen
      rw [listTotal_cons]
      simp only [List.isEmpty_cons, List.length_nil, Bool.false_eq_true, if_false]
      omega

/-- Chunk emission bound: under the loop invariant, every chunk
`_join_docs` emits is at most the chunk size. -/
theorem emit_chunk_le (cs : Nat) (sep : Text)
    (hws : ∀ ch ∈ sep, isPyWs ch = true) (cur : List Text) (total : Nat)
    (htot : total = listTotal sep.length cur)
    (hinv : total ≤ cs ∨ (cur.head? = some [] ∧ total ≤ cs + sep.length)) :
    ∀ c ∈ joinDocs sep cur, c.length ≤ cs := by
  intro c hc
  rcases hinv with h | ⟨hhead, h⟩
  · have := joinDocs_length_le sep cur c hc
    omega
  · cases cur with
    | nil => simp at hhead
    | cons p l' =>
      have hp : p = [] := by
        simpa using hhead
      subst hp
      have := joinDocs_length_head_nil sep hws l' c hc
      omega

/-- The merge-loop invariant: every emitted chunk has length at most the
chunk size, provided every incoming piece is strictly shorter than it. -/
theorem mergeLoop_chunk_le (cs ov : Nat) (sep : Text)
    (hws : ∀ ch ∈ sep, isPyWs ch = true) :
    ∀ (splits docs : List Text) (total : Nat) (curRev : List Text),
      (∀ p ∈ splits, p.length < cs) →
      total = listTotal sep.length curRev.reverse →
      (total ≤ cs ∨ (curRev.reverse.head? = some [] ∧ total ≤ cs + sep.length)) →
      (∀ c ∈ docs, c.length ≤ cs) →
      ∀ c ∈ mergeLoop cs ov sep splits docs total curRev, c.length ≤ cs := by
  intro splits
  induction splits with
  | nil =>
    intro docs total curRev _ htot hinv hdocs c hc
    rw [mergeLoop] at hc
    rcases List.mem_append.mp hc with h | h
    · exact hdocs c h
    · exact emit_chunk_le cs sep hws curRev.reverse total htot hinv c h
  | cons d rest ih =>
    intro docs total curRev hgood htot hinv hdocs c hc
    have hrevEmpty : curRev.reverse.isEmpty = curRev.isEmpty := by
      cases curRev <;> simp
    have hdlt : d.length < cs := hgood d (by simp)
    have hgood' : ∀ p ∈ rest, p.length < cs := fun p hp => hgood p (by simp [hp])
    simp only [mergeLoop] at hc
    by_cases hguard :
        total + d.length + (if curRev.isEmpty then 0 else sep.length) > cs
    · -- flush branch
      rw [if_pos hguard] at hc
      have hps := popLoop_spec cs ov sep.length d.length curRev.reverse total htot
      set popped := popLoop cs ov sep.length d.length curRev.reverse total with hpop
      refine ih _ _ _ hgood' ?_ ?_ ?_ c hc
      · -- total accounting for the new current
        simp only [List.reverse_cons, List.reverse_reverse]
        rw [listTotal_append_singleton, ← hps.1]
      · -- the invariant for the new current
        simp only [List.reverse_cons, List.reverse_reverse]
        rcases hps.2 with hnil | ⟨hov, hfit⟩
        · left
          rw [hnil] at hps ⊢
          have h0 : popped.2 = 0 := by
            simpa [listTotal_nil] using hps.1
          simp [h0, listTotal_nil]
          omega
        · rcases hfit with hfit | h0
          · left
            have hle : (if popped.1.isEmpty then 0 else sep.length) ≤ sep.length := by
              split <;> omega
            omega
          · -- only empty pieces survive
            cases hq : popped.1 with
            | nil =>
              left
              rw [hq] at hps
              simp [listTotal_nil] at hps
              simp [hq, h0]
              omega
            | cons q l' =>
              right
              have hq0 : q = [] := by
                have hall := listTotal_zero_all_nil sep.length popped.1
                  (by rw [← hps.1, h0])
                exact hall q (by rw [hq]; simp)
              constructor
              · simp [hq0]
              · simp only [List.isEmpty_cons, Bool.false_eq_true, if_false]
                omega
      · -- docs bound after flush
        intro x hx
        rcases List.mem_append.mp hx with h | h
        · exact hdocs x h
        · exact emit_chunk_le cs sep hws curRev.reverse total htot hinv x h
    · -- no-flush branch
      rw [if_neg hguard] at hc
      refine ih _ _ _ hgood' ?_ ?_ hdocs c hc
      · simp only [List.reverse_cons]
        rw [listTotal_append_singleton, ← htot, hrevEmpty]
      · left
        omega

/-- Every chunk `_merge_splits` produces from short pieces is at most the
chunk size. -/
theorem mergeSplits_chunk_le (cs ov : Nat) (sep : Text)
    (hws : ∀ ch ∈ sep, isPyWs ch = true) (splits : List Text)
    (hgood : ∀ p ∈ splits, p.length < cs) :
    ∀ c ∈ mergeSplits cs ov sep splits, c.length ≤ cs := by
  intro c hc
  exact mergeLoop_chunk_le cs ov sep hws splits [] 0 [] hgood
    (by simp [listTotal_nil]) (by left; omega) (by simp) c hc

theorem processSplits_chunk_le (cs ov : Nat) (recur : Text → List Text)
    (sep : Text) (hws : ∀ ch ∈ sep, isPyWs ch = true)
    (hrec : ∀ s, ∀ c ∈ recur s, c.length ≤ cs) :
    ∀ (splits goodRev : List Text), (∀ p ∈ goodRev, p.length < cs) →
      ∀ c ∈ processSplits cs ov recur sep splits goodRev, c.length ≤ cs := by
  intro splits
  induction splits with
  | nil =>
    intro goodRev hgood c hc
    rw [processSplits] at hc
    split at hc
    · simp at hc
    · exact mergeSplits_chunk_le cs ov sep hws goodRev.reverse
        (fun p hp => hgood p (List.mem_reverse.mp hp)) c hc
  | cons s rest ih =>
    intro goodRev hgood c hc
    rw [processSplits] at hc
    split at hc
    · rename_i hs
      exact ih (s :: goodRev)
        (by
          intro p hp
          rcases List.mem_cons.mp hp with rfl | hp
          · exact hs
          · exact hgood p hp) c hc
    · rcases List.mem_append.mp hc with hc | hc
      · rcases List.mem_append.mp hc with hc | hc
        · split at hc
          · simp at hc
          · exact mergeSplits_chunk_le cs ov sep hws goodRev.reverse
              (fun p hp => hgood p (List.mem_reverse.mp hp)) c hc
        · exact hrec s c hc
      · exact ih [] (by simp) c hc

theorem splitTextCore_chunk_le (cs ov : Nat) :
    ∀ (fuel : Nat) (text : Text), ∀ c ∈ splitTextCore cs ov fuel text,
      c.length ≤ cs := by
  intro fuel
  induction fuel with
  | zero =>
    intro text c hc
    simp [splitTextCore] at hc
  | succ fuel ih =>
    intro text c hc
    have h1 : splitTextCore cs ov (fuel + 1) text =
        processSplits cs ov (fun s => splitTextCore cs ov fuel s)
          (chooseSeparator text) (getSplits (chooseSeparator text) text) [] := rfl
    rw [h1] at hc
    exact processSplits_chunk_le cs ov _ _
      (fun ch hch => List.all_eq_true.mp (chooseSeparator_all_ws text) ch hch)
      (fun s => ih s) _ [] (by simp) c hc

theorem splitText_chunk_le (cs ov : Nat) (text : Text) :
    ∀ c ∈ splitText cs ov text, c.length ≤ cs :=
  splitTextCore_chunk_le cs ov (text.length + 1) text

/-- Every output of `create_documents` is a chunk of one of the inputs:
bounded content, metadata copied unchanged. -/
theorem createDocuments_spec (cs ov : Nat) :
    ∀ (pairs : List (Text × Metadata)), ∀ d ∈ createDocuments cs ov pairs,
      d.page_content.length ≤ cs ∧ ∃ p ∈ pairs, d.metadata = p.2 := by
  intro pairs
  induction pairs with
  | nil =>
    intro d hd
    simp [createDocuments] at hd
  | cons p rest ih =>
    intro d hd
    rw [createDocuments] at hd
    rcases List.mem_append.mp hd with hd | hd
    · obtain ⟨chunk, hchunk, rfl⟩ := List.mem_map.mp hd
      exact ⟨splitText_chunk_le cs ov p.1 chunk hchunk, p, by simp⟩
    · obtain ⟨hlen, q, hq, hmeta⟩ := ih d hd
      exact ⟨hlen, q, by simp [hq], hmeta⟩

/-! ## Chunk non-emptiness: `_join_docs` drops empty stripped chunks. -/

theorem mergeLoop_chunk_ne_nil (cs ov : Nat) (sep : Text) :
    ∀ (splits docs : List Text) (total : Nat) (curRev : List Text),
      (∀ c ∈ docs, c ≠ []) →
      ∀ c ∈ mergeLoop cs ov sep splits docs total curRev, c ≠ [] := by
  intro splits
  induction splits with
  | nil =>
    intro docs total curRev hdocs c hc
    rw [mergeLoop] at hc
    rcases List.mem_append.mp hc with h | h
    · exact hdocs c h
    · exact joinDocs_ne_nil sep _ c h
  | cons d rest ih =>
    intro docs total curRev hdocs c hc
    simp only [mergeLoop] at hc
    by_cases hguard :
        total + d.length + (if curRev.isEmpty then 0 else sep.length) > cs
    · rw [if_pos hguard] at hc
      refine ih _ _ _ ?_ c hc
      intro x hx
      rcases List.mem_append.mp hx with h | h
      · exact hdocs x h
      · exact joinDocs_ne_nil sep _ x h
    · rw [if_neg hguard] at hc
      exact ih _ _ _ hdocs c hc

theorem processSplits_chunk_ne_nil (cs ov : Nat) (recur : Text → List Text)
    (sep : Text) (hrec : ∀ s, ∀ c ∈ recur s, c ≠ []) :
    ∀ (splits goodRev : List Text),
      ∀ c ∈ processSplits cs ov recur sep splits goodRev, c ≠ [] := by
  intro splits
  induction splits with
  | nil =>
    intro goodRev c hc
    rw [processSplits] at hc
    split at hc
    · simp at hc
    · exact mergeLoop_chunk_ne_nil cs ov sep _ [] 0 [] (by simp) c hc
  | cons s rest ih =>
    intro goodRev c hc
    rw [processSplits] at hc
    split at hc
    · exact ih (s :: goodRev) c hc
    · rcases List.mem_append.mp hc with hc | hc
      · rcases List.mem_append.mp hc with hc | hc
        · split at hc
          · simp at hc
          · exact mergeLoop_chunk_ne_nil cs ov sep _ [] 0 [] (by simp) c hc
        · exact hrec s c hc
      · exact ih [] c hc

theorem splitTextCore_chunk_ne_nil (cs ov : Nat) :
    ∀ (fuel : Nat) (text : Text), ∀ c ∈ splitTextCore cs ov fuel text,
      c ≠ [] := by
  intro fuel
  induction fuel with
  | zero =>
    intro text c hc
    simp [splitTextCore] at hc
  | succ fuel ih =>
    intro text c hc
    have h1 : splitTextCore cs ov (fuel + 1) text =
        processSplits cs ov (fun s => splitTextCore cs ov fuel s)
          (chooseSeparator text) (getSplits (chooseSeparator text) text) [] := rfl
    rw [h1] at hc
    exact processSplits_chunk_ne_nil cs ov _ _ (fun s => ih s) _ [] c hc

theorem createDocuments_content_ne_nil (cs ov : Nat) :
    ∀ (pairs : List (Text × Metadata)), ∀ d ∈ createDocuments cs ov pairs,
      d.page_content ≠ [] := by
  intro pairs
  induction pairs with
  | nil =>
    intro d hd
    simp [createDocuments] at hd
  | cons p rest ih =>
    intro d hd
    rw [createDocuments] at hd
    rcases List.mem_append.mp hd with hd | hd
    · obtain ⟨chunk, hchunk, rfl⟩ := List.mem_map.mp hd
      exact splitTextCore_chunk_ne_nil cs ov _ p.1 chunk hchunk
    · exact ih d hd

def metaEx : Metadata := ⟨"https://saiteki.works/x", "T - U", none⟩

def docHello : Document := ⟨"hello".data, metaEx⟩

def metaEx2 : Metadata := ⟨"https://saiteki.works/y", "T2 - U2", none⟩

/-- C6 counterexample: for this 1011-character document the two chunks
drop the separating space and share no overlap, so no removal of an
overlap of at most 50 characters can reconstruct the original content. -/
theorem c6_counterexample :
    1000 < (Document.mk (List.replicate 990 'A' ++ [' '] ++ List.replicate 20 'B')
        metaEx).page_content.length ∧
    (split_documents [Document.mk
        (List.replicate 990 'A' ++ [' '] ++ List.replicate 20 'B') metaEx]).map
        Document.page_content =
      [List.replicate 990 'A', List.replicate 20 'B'] ∧
    (∀ k, k ≤ 50 →
      List.replicate 990 'A' ++ List.drop k (List.replicate 20 'B') ≠
        List.replicate 990 'A' ++ [' '] ++ List.replicate 20 'B') := by
  refine ⟨by decide, by decide, ?_⟩
  intro k hk heq
  have hlen := congrArg List.length heq
  simp only [List.length_append, List.length_drop, List.length_replicate,
    List.length_cons, List.length_nil] at hlen
  omega

/-- C6 (amended): for a document longer than the chunk size, every chunk
has content length at most 1000 and carries the source metadata
unchanged; consecutive chunks need not overlap and concatenation minus
overlaps need not reconstruct the content. -/
theorem c6_chunk_size_and_metadata (D : Document)
    (_h : 1000 < D.page_content.length) :
    ∀ c ∈ split_documents [D],
      c.page_content.length ≤ 1000 ∧ c.metadata = D.metadata := by
  intro c hc
  have hc' : c ∈ createDocuments 1000 50 [(D.page_content, D.metadata)] := hc
  obtain ⟨hlen, p, hp, hmeta⟩ := createDocuments_spec 1000 50 _ c hc'
  rcases List.mem_singleton.mp hp with rfl
  exact ⟨hlen, hmeta⟩

theorem c6_chunk_size_and_metadata_witness :
    1000 < (Document.mk (List.replicate 1200 'A') metaEx).page_content.length ∧
    ∀ c ∈ split_documents [Document.mk (List.replicate 1200 'A') metaEx],
      c.page_content.length ≤ 1000 ∧ c.metadata = metaEx :=
  ⟨by simp, fun c hc =>
    c6_chunk_size_and_metadata (Document.mk (List.replicate 1200 'A') metaEx)
      (by simp) c hc⟩

def doc300 : Document := ⟨List.replicate 300 'A', metaEx⟩

/-- C7 counterexample: the split operation of the repository takes no
chunk-size or overlap options; on this document its output is the
hard-coded 1000/50 behaviour and differs from the 100/50 splitter's. -/
theorem c7_counterexample :
    split_documents [doc300] = [doc300] ∧
    createDocuments 100 50 [(doc300.page_content, doc300.metadata)] ≠ [doc300] ∧
    (createDocuments 100 50 [(doc300.page_content, doc300.metadata)]).length = 5 := by
  refine ⟨by decide, by decide, by decide⟩

/-- C7 (amended): `split_documents` always invokes the underlying
parametric splitter with the hard-coded values `chunk_size=1000` and
`chunk_overlap=50` — they are fixed at the call site, not options a
caller could change — and the 1000 bound governs every chunk. -/
theorem c7_hardcoded_configuration :
    ∀ docs : List Document,
      split_documents docs =
        createDocuments 1000 50 (docs.map fun d => (d.page_content, d.metadata)) ∧
      ∀ c ∈ split_documents docs, c.page_content.length ≤ 1000 := by
  intro docs
  refine ⟨rfl, ?_⟩
  intro c hc
  exact (createDocuments_spec 1000 50 _ c hc).1

theorem c7_hardcoded_configuration_witness :
    split_documents [doc300] =
      createDocuments 1000 50 ([doc300].map fun d => (d.page_content, d.metadata)) ∧
    ∀ c ∈ split_documents [doc300], c.page_content.length ≤ 1000 :=
  c7_hardcoded_configuration [doc300]

/-- C8: splitting "A"×1200 and "B"×300 with the configured 1000/50 yields
two chunks for the first document — the second chunk starting at offset
950, i.e. 50 characters before the 1000-character boundary — and one
chunk for the second. -/
theorem c8_two_document_scenario :
    split_documents [Document.mk (List.replicate 1200 'A') metaEx,
                     Document.mk (List.replicate 300 'B') metaEx2] =
      [Document.mk (List.replicate 1000 'A') metaEx,
       Document.mk (List.drop 950 (List.replicate 1200 'A')) metaEx,
       Document.mk (List.replicate 300 'B') metaEx2] ∧
    (950 : Nat) = 1000 - 50 := by
  refine ⟨by decide, rfl⟩

theorem c5_short_document_preserved_witness :
    split_documents [docHello] = [docHello] ∧
    split_documents [Document.mk [] metaEx] = [] :=
  ⟨c5_short_document_preserved.1 docHello (by decide) (by decide)
      (fun c hc => by
        simp only [docHello, List.head?_cons, Option.some.injEq] at hc
        rw [← hc]
        decide)
      (fun c hc => by
        have : c = 'o' := by
          simpa [docHello, String.data] using hc.symm
        rw [this]
        decide),
   c5_short_document_preserved.2 metaEx⟩

/-! ## C1: per-document extraction failures during ingestion -/

def goodPage1 : Page := ⟨some "T1", some ⟨some "U1"⟩, some "body one".data⟩

/-- A page whose `h1` title element is absent. -/
def badPage : Page := ⟨none, some ⟨some "U2"⟩, some "body two".data⟩

def goodPage2 : Page := ⟨some "T3", some ⟨some "U3"⟩, some "body three".data⟩

def fetch3 : String → Page := fun u =>
  if u = "u1" then goodPage1 else if u = "u2" then badPage else goodPage2

/-- C1 counterexample: a batch of three pages, the second lacking its
title, does not complete — `_generate_documents` (and hence the whole
ingestion) aborts with the page's error, and no chunk set containing the
two good pages is produced. -/
theorem c1_counterexample :
    generateDocuments fetch3 ["u1", "u2", "u3"] =
      .error (.missingTitle "u2") ∧
    (∀ ds, generateDocuments fetch3 ["u1", "u2", "u3"] ≠ .ok ds) ∧
    (∃ d, generate_document fetch3 "u1" = .ok d) ∧
    (∃ d, generate_document fetch3 "u3" = .ok d) ∧
    get_documents_from_urls fetch3 (fun _ => ["u1", "u2", "u3"]) ["root"] =
      .error (.missingTitle "u2") := by
  refine ⟨rfl, ?_, ⟨_, rfl⟩, ⟨_, rfl⟩, rfl⟩
  intro ds h
  rw [show generateDocuments fetch3 ["u1", "u2", "u3"] =
    .error (.missingTitle "u2") from rfl] at h
  exact Except.noConfusion h

/-- C1 (amended): a per-document extraction failure is not isolated: the
first failing page's error propagates out of `_generate_documents`,
aborting the whole batch — no documents at all are produced, not even for
the good pages. -/
theorem c1_bad_page_aborts_batch (fetch : String → Page)
    (us vs : List String) (u : String) (e : ExtractionError)
    (hbad : generate_document fetch u = .error e)
    (hgood : ∀ x ∈ us, ∃ d, generate_document fetch x = .ok d) :
    generateDocuments fetch (us ++ u :: vs) = .error e := by
  induction us with
  | nil =>
    rw [List.nil_append, generateDocuments, hbad]
  | cons x xs ih =>
    obtain ⟨d, hd⟩ := hgood x (by simp)
    rw [List.cons_append, generateDocuments, hd,
      ih (fun y hy => hgood y (by simp [hy]))]

theorem c1_bad_page_aborts_batch_witness :
    generateDocuments fetch3 (["u1"] ++ "u2" :: ["u3"]) =
      .error (.missingTitle "u2") :=
  c1_bad_page_aborts_batch fetch3 ["u1"] ["u3"] "u2" (.missingTitle "u2")
    rfl
    (fun x hx => by
      rcases List.mem_singleton.mp hx with rfl
      exact ⟨_, rfl⟩)

/-! ## C2–C4: the Agent's initialization state machine -/

/-- C2: when the chain is uninitialized and initialization cannot succeed
(missing credential or unloadable index), the typed error surfaces from
both `initialize_chain` and `run`, `qa_chain` stays `None`, and a later
call with a healthy environment can still perform the transition. -/
theorem c2_failed_init_leaves_uninitialized (env : Env) (a : Agent)
    (prompt : String) (hchain : a.qa_chain = none)
    (hfail : env.apiKey = none ∨ env.storedIndex = none) :
    (∃ e : AgentError,
      (initialize_chain env a).1 = .error e ∧
      (Agent.run env a prompt).1 = .error e ∧
      (env.apiKey = none → e = .missingCredential) ∧
      (env.apiKey ≠ none → e = .indexLoad)) ∧
    (initialize_chain env a).2.1.qa_chain = none ∧
    (Agent.run env a prompt).2.1.qa_chain = none ∧
    (∀ env' : Env, env'.apiKey ≠ none → env'.storedIndex ≠ none →
      ∃ ch : QAChain,
        (initialize_chain env' (initialize_chain env a).2.1).1 = .ok ch ∧
        (initialize_chain env' (initialize_chain env a).2.1).2.1.qa_chain =
          some ch) := by
  have hretry : ∀ (a' : Agent) (env' : Env), env'.apiKey ≠ none →
      env'.storedIndex ≠ none →
      ∃ ch : QAChain, (initialize_chain env' a').1 = .ok ch ∧
        (initialize_chain env' a').2.1.qa_chain = some ch := by
    intro a' env' hk hi
    cases hk' : env'.apiKey with
    | none => exact absurd hk' hk
    | some key =>
      cases hi' : env'.storedIndex with
      | none => exact absurd hi' hi
      | some idx =>
        exact ⟨⟨idx, env'.llm⟩, by simp [initialize_chain, hk', hi'], by
          simp [initialize_chain, hk', hi']⟩
  have hkey : env.apiKey = none ∨ ∃ key, env.apiKey = some key := by
    cases h : env.apiKey
    · exact Or.inl rfl
    · exact Or.inr ⟨_, rfl⟩
  rcases hkey with hk | ⟨key, hk⟩
  · have h1 : initialize_chain env a = (.error .missingCredential, a, []) := by
      simp [initialize_chain, hk]
    have h2 : Agent.run env a prompt = (.error .missingCredential, a, []) := by
      simp [Agent.run, hchain, h1]
    refine ⟨⟨.missingCredential, by rw [h1], by rw [h2], fun _ => rfl,
        fun h => absurd hk h⟩, by rw [h1]; exact hchain,
      by rw [h2]; exact hchain,
      fun env' hk' hi' => by rw [h1]; exact hretry a env' hk' hi'⟩
  · have hi : env.storedIndex = none := by
      rcases hfail with h | h
      · rw [hk] at h; cases h
      · exact h
    have h1 : initialize_chain env a =
        (.error .indexLoad, { a with openai_api_key := some key },
         [.indexLoad]) := by
      simp [initialize_chain, hk, hi]
    have h2 : Agent.run env a prompt =
        (.error .indexLoad, { a with openai_api_key := some key },
         [.indexLoad]) := by
      simp [Agent.run, hchain, h1]
    refine ⟨⟨.indexLoad, by rw [h1], by rw [h2], ?_, fun _ => rfl⟩,
      by rw [h1]; exact hchain, by rw [h2]; exact hchain,
      fun env' hk' hi' => by rw [h1]; exact hretry _ env' hk' hi'⟩
    intro h
    rw [hk] at h
    cases h

def emptyLlm : String → List Document → String := fun _ _ => ""

def envNoKey : Env := ⟨none, none, emptyLlm⟩

def agentFresh : Agent := Agent.init "vector_store_faiss" "index"

def oneDoc : Document :=
  ⟨"body".data, ⟨"https://saiteki.works/a", "T - U", none⟩⟩

def oneDocIndex : Faiss := ⟨fun _ k => if k = 0 then [] else [(oneDoc, 7)]⟩

def envHealthy : Env := ⟨some "sk-key", some oneDocIndex, emptyLlm⟩

theorem c2_failed_init_leaves_uninitialized_witness :
    (∃ e : AgentError,
      (initialize_chain envNoKey agentFresh).1 = .error e ∧
      (Agent.run envNoKey agentFresh "x").1 = .error e ∧
      (envNoKey.apiKey = none → e = .missingCredential) ∧
      (envNoKey.apiKey ≠ none → e = .indexLoad)) ∧
    (initialize_chain envNoKey agentFresh).2.1.qa_chain = none ∧
    (Agent.run envNoKey agentFresh "x").2.1.qa_chain = none ∧
    (∀ env' : Env, env'.apiKey ≠ none → env'.storedIndex ≠ none →
      ∃ ch : QAChain,
        (initialize_chain env' (initialize_chain envNoKey agentFresh).2.1).1 =
          .ok ch ∧
        (initialize_chain env'
            (initialize_chain envNoKey agentFresh).2.1).2.1.qa_chain =
          some ch) :=
  c2_failed_init_leaves_uninitialized envNoKey agentFresh "x" rfl (Or.inl rfl)

/-- C3: with an initialized chain, `run` retrieves with the default
`k = 5`, and returns the synthesized answer together with one
`{title, url, score}` entry per retrieved chunk, in retrieval order. -/
theorem c3_run_returns_sources_in_order (env : Env) (a : Agent)
    (prompt : String) (ch : QAChain) (h : a.qa_chain = some ch) :
    Agent.run env a prompt =
      (.ok { answer_text := ch.llm prompt (similarity_search ch.index prompt),
             source_documents := (ch.index.searchWithScore prompt 5).map fun p =>
               { title := p.1.metadata.title, url := p.1.metadata.source,
                 score := some p.2 } },
       a, [.embed, .llm]) := by
  simp only [Agent.run, h, callChain, similarity_search, List.map_map,
    List.nil_append]
  rfl

theorem c3_run_returns_sources_in_order_witness :
    Agent.run envHealthy { agentFresh with
        qa_chain := some ⟨oneDocIndex, emptyLlm⟩ } "q" =
      (.ok { answer_text :=
               emptyLlm "q" (similarity_search oneDocIndex "q"),
             source_documents := (oneDocIndex.searchWithScore "q" 5).map fun p =>
               { title := p.1.metadata.title, url := p.1.metadata.source,
                 score := some p.2 } },
       { agentFresh with qa_chain := some ⟨oneDocIndex, emptyLlm⟩ },
       [.embed, .llm]) :=
  c3_run_returns_sources_in_order envHealthy _ "q" ⟨oneDocIndex, emptyLlm⟩ rfl

/-- C4: with the `OPENAI_API_KEY` credential absent, `initialize_chain`
fails with the typed credential error before anything else: the agent is
unchanged and no external call (embedding, index load, LLM) is made. -/
theorem c4_missing_credential_no_calls (env : Env) (a : Agent)
    (h : env.apiKey = none) :
    initialize_chain env a = (.error .missingCredential, a, []) := by
  simp [initialize_chain, h]

theorem c4_missing_credential_no_calls_witness :
    initialize_chain envNoKey agentFresh =
      (.error .missingCredential, agentFresh, []) :=
  c4_missing_credential_no_calls envNoKey agentFresh rfl

/-! ## C9: the score field across ingestion and retrieval -/

/-- C9 counterexample: a fetched page whose body element is present but
empty yields a built Document with empty content — "content non-empty"
is not an invariant `generate_document` enforces. -/
theorem c9_counterexample :
    generate_document (fun _ => ⟨some "T", some ⟨some "U"⟩, some []⟩)
        "https://saiteki.works/e" =
      .ok ⟨[], ⟨"https://saiteki.works/e", "T - U", none⟩⟩ ∧
    (Document.mk [] ⟨"https://saiteki.works/e", "T - U", none⟩).page_content
      = [] := by
  exact ⟨rfl, rfl⟩

/-- C9 (amended): every built Document carries the source URL and no
score; every chunk split from it inherits that metadata unchanged (hence
no score) and has non-empty content, though the built Document itself may
have empty content; a score appears exactly on the documents returned by
`similarity_search`. -/
theorem c9_score_only_after_retrieval :
    (∀ (fetch : String → Page) (url : String) (d : Document),
      generate_document fetch url = .ok d →
      d.metadata.source = url ∧ d.metadata.score = none ∧
      ∀ c ∈ split_documents [d],
        c.metadata = d.metadata ∧ c.page_content ≠ []) ∧
    (∀ (vs : Faiss) (q : String) (k : Nat),
      (similarity_search vs q k).map (fun d => d.metadata.score) =
        (vs.searchWithScore q k).map (fun p => some p.2)) := by
  constructor
  · intro fetch url d hd
    unfold generate_document at hd
    simp only at hd
    split at hd
    · exact Except.noConfusion hd
    split at hd
    · exact Except.noConfusion hd
    split at hd
    · exact Except.noConfusion hd
    split at hd
    · exact Except.noConfusion hd
    simp only [Except.ok.injEq] at hd
    subst hd
    refine ⟨rfl, rfl, ?_⟩
    intro c hc
    obtain ⟨_, p, hp, hmeta⟩ := createDocuments_spec 1000 50 _ c hc
    rcases List.mem_singleton.mp hp with rfl
    exact ⟨hmeta, createDocuments_content_ne_nil 1000 50 _ c hc⟩
  · intro vs q k
    simp [similarity_search]

theorem c9_score_only_after_retrieval_witness :
    ((Document.mk "body one".data
        ⟨"u1", "T1 - U1", none⟩).metadata.source = "u1" ∧
      (Document.mk "body one".data ⟨"u1", "T1 - U1", none⟩).metadata.score
        = none ∧
      ∀ c ∈ split_documents [Document.mk "body one".data ⟨"u1", "T1 - U1", none⟩],
        c.metadata = (Document.mk "body one".data
          ⟨"u1", "T1 - U1", none⟩).metadata ∧ c.page_content ≠ []) ∧
    (similarity_search oneDocIndex "q" 5).map (fun d => d.metadata.score) =
      (oneDocIndex.searchWithScore "q" 5).map (fun p => some p.2) :=
  ⟨c9_score_only_after_retrieval.1 fetch3 "u1"
      (Document.mk "body one".data ⟨"u1", "T1 - U1", none⟩) rfl,
   c9_score_only_after_retrieval.2 oneDocIndex "q" 5⟩

/-! ## C10: `delete_all_indexes` totality -/

/-- C10: `delete_all_indexes` succeeds on every filesystem state: it
removes the index folder and its contents when present, and is a no-op
(not an error) when the folder is absent. -/
theorem c10_delete_all_indexes_total (vs : VectorStore) (fs : FileSys) :
    delete_all_indexes vs fs =
      .ok ⟨fs.folders.filter (fun f => f.1 != vs.folder_path)⟩ ∧
    (isdir vs.folder_path fs = false → delete_all_indexes vs fs = .ok fs) := by
  constructor
  · unfold delete_all_indexes rmtree
    by_cases h : isdir vs.folder_path fs
    · rw [if_pos h, if_pos h]
    · rw [if_neg (by simp [h]), Except.ok.injEq]
      unfold isdir at h
      cases fs with
      | mk folders =>
        simp only [FileSys.mk.injEq]
        refine (List.filter_eq_self.mpr ?_).symm
        intro f hf
        simp only [List.any_eq_true, not_exists, not_and] at h
        have hf' := h f hf
        simp only [beq_iff_eq] at hf'
        simpa [bne_iff_ne] using hf'
  · intro h
    unfold delete_all_indexes
    rw [if_neg (by simp [h])]

theorem c10_delete_all_indexes_total_witness :
    delete_all_indexes ⟨"vector_store_faiss", "index"⟩
        ⟨[("other", [("f", "x")])]⟩ =
      .ok ⟨[("other", [("f", "x")])].filter
        (fun f => f.1 != "vector_store_faiss")⟩ ∧
    (isdir "vector_store_faiss" ⟨[("other", [("f", "x")])]⟩ = false →
      delete_all_indexes ⟨"vector_store_faiss", "index"⟩
          ⟨[("other", [("f", "x")])]⟩ =
        .ok ⟨[("other", [("f", "x")])]⟩) :=
  c10_delete_all_indexes_total ⟨"vector_store_faiss", "index"⟩
    ⟨[("other", [("f", "x")])]⟩

end Saiteki
